import Mathlib

/-!
Verification of the multilspy `LanguageServer` core (file buffers, document-symbol
cache, ignore handling, reference/containing-symbol queries and the full symbol
tree) against a shallow embedding of `src/multilspy/language_server.py` and
`src/multilspy/uri_path_mapper.py`.

Machine integers are modelled as `Nat` with explicit reduction modulo `2 ^ 32`
where the MD5 algorithm demands it; fallible operations return `Except`;
strings are modelled as `List Char`, and repository-relative paths as
`List String` (the list of path segments, mirroring Python's `Path.parts`).
-/

set_option maxRecDepth 1000000

/-! ## MD5 (RFC 1321), modelling Python's `hashlib.md5(...).hexdigest()`

`LSPFileBuffer.__post_init__` computes
`hashlib.md5(self.contents.encode('utf-8')).hexdigest()`; the definitions below
implement that hash executably: UTF-8 encoding of the contents, MD5 padding and
compression, and lowercase hex rendering of the 16-byte digest. -/

/-- Reduce modulo `2 ^ 32`, the implicit word size of the MD5 state. -/
def b32 (x : Nat) : Nat := x % 4294967296

/-- Bitwise complement of a 32-bit word. -/
def not32 (x : Nat) : Nat := 4294967295 - x

/-- Left-rotation of a 32-bit word by `n` bits. -/
def rotl32 (x n : Nat) : Nat := ((x * 2 ^ n) % 4294967296) + (x / 2 ^ (32 - n))

/-- The 64 MD5 round constants `K[i] = floor(2^32 * abs(sin(i + 1)))`. -/
def md5K : List Nat :=
  [0xd76aa478, 0xe8c7b756, 0x242070db, 0xc1bdceee,
   0xf57c0faf, 0x4787c62a, 0xa8304613, 0xfd469501,
   0x698098d8, 0x8b44f7af, 0xffff5bb1, 0x895cd7be,
   0x6b901122, 0xfd987193, 0xa679438e, 0x49b40821,
   0xf61e2562, 0xc040b340, 0x265e5a51, 0xe9b6c7aa,
   0xd62f105d, 0x02441453, 0xd8a1e681, 0xe7d3fbc8,
   0x21e1cde6, 0xc33707d6, 0xf4d50d87, 0x455a14ed,
   0xa9e3e905, 0xfcefa3f8, 0x676f02d9, 0x8d2a4c8a,
   0xfffa3942, 0x8771f681, 0x6d9d6122, 0xfde5380c,
   0xa4beea44, 0x4bdecfa9, 0xf6bb4b60, 0xbebfbc70,
   0x289b7ec6, 0xeaa127fa, 0xd4ef3085, 0x04881d05,
   0xd9d4d039, 0xe6db99e5, 0x1fa27cf8, 0xc4ac5665,
   0xf4292244, 0x432aff97, 0xab9423a7, 0xfc93a039,
   0x655b59c3, 0x8f0ccc92, 0xffeff47d, 0x85845dd1,
   0x6fa87e4f, 0xfe2ce6e0, 0xa3014314, 0x4e0811a1,
   0xf7537e82, 0xbd3af235, 0x2ad7d2bb, 0xeb86d391]

/-- The 64 MD5 per-round left-rotation amounts. -/
def md5S : List Nat :=
  [7, 12, 17, 22, 7, 12, 17, 22, 7, 12, 17, 22, 7, 12, 17, 22,
   5, 9, 14, 20, 5, 9, 14, 20, 5, 9, 14, 20, 5, 9, 14, 20,
   4, 11, 16, 23, 4, 11, 16, 23, 4, 11, 16, 23, 4, 11, 16, 23,
   6, 10, 15, 21, 6, 10, 15, 21, 6, 10, 15, 21, 6, 10, 15, 21]

/-- One MD5 round: round `i` of the compression function on state `(a, b, c, d)`
with the 16-word message block `M`. -/
def md5Round (M : List Nat) (st : Nat × Nat × Nat × Nat) (i : Nat) : Nat × Nat × Nat × Nat :=
  let a := st.1; let b := st.2.1; let c := st.2.2.1; let d := st.2.2.2
  let fg : Nat × Nat :=
    if i < 16 then ((b &&& c) ||| (not32 b &&& d), i)
    else if i < 32 then ((d &&& b) ||| (not32 d &&& c), (5 * i + 1) % 16)
    else if i < 48 then (b ^^^ c ^^^ d, (3 * i + 5) % 16)
    else (c ^^^ (b ||| not32 d), (7 * i) % 16)
  let f := b32 (fg.1 + a + md5K.getD i 0 + M.getD fg.2 0)
  (d, b32 (b + rotl32 f (md5S.getD i 0)), b, c)

/-- The MD5 compression function: 64 rounds followed by the feed-forward sum. -/
def md5Compress (st : Nat × Nat × Nat × Nat) (M : List Nat) : Nat × Nat × Nat × Nat :=
  let r := (List.range 64).foldl (md5Round M) st
  (b32 (st.1 + r.1), b32 (st.2.1 + r.2.1), b32 (st.2.2.1 + r.2.2.1), b32 (st.2.2.2 + r.2.2.2))

/-- Fold the compression function over the padded message, 16 words at a time. -/
def md5Blocks : List Nat → (Nat × Nat × Nat × Nat) → Nat × Nat × Nat × Nat
  | m0 :: m1 :: m2 :: m3 :: m4 :: m5 :: m6 :: m7 ::
    m8 :: m9 :: m10 :: m11 :: m12 :: m13 :: m14 :: m15 :: rest, st =>
      md5Blocks rest
        (md5Compress st [m0, m1, m2, m3, m4, m5, m6, m7, m8, m9, m10, m11, m12, m13, m14, m15])
  | _, st => st

/-- Group a byte list into little-endian 32-bit words. -/
def toWords : List Nat → List Nat
  | b0 :: b1 :: b2 :: b3 :: rest => (b0 + 256 * (b1 + 256 * (b2 + 256 * b3))) :: toWords rest
  | _ => []

/-- The 8 little-endian bytes of a 64-bit length field. -/
def le8 (n : Nat) : List Nat :=
  [n % 256, n / 256 % 256, n / 256 ^ 2 % 256, n / 256 ^ 3 % 256,
   n / 256 ^ 4 % 256, n / 256 ^ 5 % 256, n / 256 ^ 6 % 256, n / 256 ^ 7 % 256]

/-- The 4 little-endian bytes of a 32-bit word. -/
def le4 (n : Nat) : List Nat := [n % 256, n / 256 % 256, n / 256 ^ 2 % 256, n / 256 ^ 3 % 256]

/-- MD5 padding: a `0x80` byte, zeros up to 56 mod 64, and the bit length. -/
def md5Pad (bytes : List Nat) : List Nat :=
  let L := bytes.length
  bytes ++ 0x80 :: List.replicate ((119 - L % 64) % 64) 0 ++ le8 ((L * 8) % 2 ^ 64)

/-- Lowercase hex digit. -/
def hexDigit (n : Nat) : Char := "0123456789abcdef".data.getD n 'x'

/-- Two lowercase hex digits of a byte. -/
def byteToHex (b : Nat) : List Char := [hexDigit (b / 16), hexDigit (b % 16)]

/-- MD5 of a byte string, rendered as the 32-character lowercase hex digest. -/
def md5BytesHex (bytes : List Nat) : List Char :=
  let st := md5Blocks (toWords (md5Pad bytes)) (0x67452301, 0xefcdab89, 0x98badcfe, 0x10325476)
  ([st.1, st.2.1, st.2.2.1, st.2.2.2].flatMap le4).flatMap byteToHex

/-- UTF-8 encoding of a single character, modelling Python's `str.encode('utf-8')`. -/
def utf8Encode (c : Char) : List Nat :=
  let n := c.toNat
  if n < 0x80 then [n]
  else if n < 0x800 then [0xC0 + n / 64, 0x80 + n % 64]
  else if n < 0x10000 then [0xE0 + n / 4096, 0x80 + n / 64 % 64, 0x80 + n % 64]
  else [0xF0 + n / 262144, 0x80 + n / 4096 % 64, 0x80 + n / 64 % 64, 0x80 + n % 64]

/-- `hashlib.md5(s.encode('utf-8')).hexdigest()` on a text modelled as `List Char`. -/
def md5Hex (s : List Char) : List Char := md5BytesHex (s.flatMap utf8Encode)

/-! ## Core data types -/

/-- An LSP `Position`, zero-based line and character. -/
structure Position where
  line : Nat
  character : Nat
deriving Repr, DecidableEq

/-- An LSP `Range` with `start` and `end` positions (`end` is a reserved word in
Lean, so the field is named `endPos`). -/
structure SymRange where
  start : Position
  endPos : Position
deriving Repr, DecidableEq

/-- The LSP symbol kinds used by the facade. `LanguageServer` compares against
`File` (1), `Package` (4), `Class` (5), `Method` (6), `Function` (12) and
`Variable` (13); all other numeric kinds are carried by `other`. `Class` and
`Variable` are reserved words in Lean, so those constructors are named `cls`
and `var`. -/
inductive SymbolKind where
  | file
  | package
  | cls
  | method
  | function
  | var
  | other (code : Nat)
deriving Repr, DecidableEq

/-- The error outcomes of the embedded operations: `notStarted` models
`MultilspyException("Language Server not started")`; `assertionFailed` a failing
`assert`; `keyError` / `fileNotFound` / `indexError` the corresponding Python
exceptions; `lspInternalOnReferences` the `RuntimeError` that
`request_references` raises on an LSP `-32603` error, carrying the originating
file, line and column; `lspError` any other structured LSP error. -/
inductive OpError where
  | notStarted
  | assertionFailed
  | keyError
  | fileNotFound
  | indexError
  | lspInternalOnReferences (relativePath : String) (line : Nat) (column : Nat)
  | lspError (code : Int) (message : String)
deriving Repr, DecidableEq

/-- Equality of `Except` outcomes is decidable when it is on both sides. -/
instance {ε α : Type} [DecidableEq ε] [DecidableEq α] : DecidableEq (Except ε α)
  | .ok a, .ok b =>
    if h : a = b then isTrue (by rw [h]) else isFalse (by intro hh; cases hh; exact h rfl)
  | .ok _, .error _ => isFalse (by intro h; cases h)
  | .error _, .ok _ => isFalse (by intro h; cases h)
  | .error e, .error f =>
    if h : e = f then isTrue (by rw [h]) else isFalse (by intro hh; cases hh; exact h rfl)

/-! ## Text edits

`TextUtils.insert_text_at_position` and `TextUtils.delete_text_between_positions`
live in `multilspy_utils.py`, which is not part of the sources at hand; they are
modelled from the spec here. Offsets into the text are computed from a
`(line, column)` pair by walking past `line` newline characters and then
`column` further characters. -/

namespace TextUtils

/-- Offset of the first character of line `n` (the position just after the
`n`-th newline) in a text. -/
def lineStartOffset : List Char → Nat → Nat
  | _, 0 => 0
  | [], _ + 1 => 0
  | c :: cs, n + 1 => if c = '\n' then 1 + lineStartOffset cs n else 1 + lineStartOffset cs (n + 1)

/-- Offset of zero-based position `(line, col)` in a text. -/
def posToOffset (cs : List Char) (line col : Nat) : Nat := lineStartOffset cs line + col

/-- Modelled from the spec: `insertAt` updates the contents by splicing the text
in at the given position, and the returned post-edit cursor position "is
computed by counting newlines and trailing-line length of the inserted text"
(spec 4.5). Returns `(new contents, new line, new column)`. -/
def insert_text_at_position (cs : List Char) (line col : Nat) (text : List Char) :
    List Char × Nat × Nat :=
  let o := posToOffset cs line col
  let nl := text.count '\n'
  let pos : Nat × Nat :=
    if nl = 0 then (line, col + text.length)
    else (line + nl, text.length - lineStartOffset text nl)
  (cs.take o ++ text ++ cs.drop o, pos)

/-- Modelled from the spec: `deleteBetween` removes the text between the two
positions and returns `(new contents, deleted text)` (spec 4.5). -/
def delete_text_between_positions (cs : List Char) (startLine startCol endLine endCol : Nat) :
    List Char × List Char :=
  let o1 := posToOffset cs startLine startCol
  let o2 := posToOffset cs endLine endCol
  (cs.take o1 ++ cs.drop o2, (cs.drop o1).take (o2 - o1))

/-- A position is valid for a text when its offset lands inside the text and the
prefix before it contains exactly `line` newlines (so the column does not run
past the end of the line). -/
def ValidPos (cs : List Char) (line col : Nat) : Prop :=
  posToOffset cs line col ≤ cs.length ∧ (cs.take (posToOffset cs line col)).count '\n' = line

instance (cs : List Char) (line col : Nat) : Decidable (ValidPos cs line col) := by
  unfold ValidPos; infer_instance

end TextUtils

/-! ## File buffers (`LSPFileBuffer`) and the open-buffer registry -/

/-- The in-memory mirror of an open LSP document, from the `LSPFileBuffer`
dataclass: URI, contents, version, language id, reference count, and the MD5
content hash. -/
structure LSPFileBuffer where
  uri : String
  contents : List Char
  version : Nat
  language_id : String
  ref_count : Nat
  content_hash : List Char
deriving Repr, DecidableEq

/-- `LSPFileBuffer(uri, contents, version, language_id, ref_count)`:
`__post_init__` sets `content_hash` to the MD5 hex digest of the contents. -/
def mkLSPFileBuffer (uri : String) (contents : List Char) (version : Nat)
    (language_id : String) (ref_count : Nat) : LSPFileBuffer :=
  { uri := uri, contents := contents, version := version, language_id := language_id,
    ref_count := ref_count, content_hash := md5Hex contents }

/-- The `open_file_buffers` dictionary, keyed by URI. -/
abbrev Registry := List (String × LSPFileBuffer)

/-- Dictionary lookup. -/
def findBuf : Registry → String → Option LSPFileBuffer
  | [], _ => none
  | (k, v) :: rest, key => if k = key then some v else findBuf rest key

/-- Dictionary assignment: replace the entry if the key is present, else append. -/
def setBuf : Registry → String → LSPFileBuffer → Registry
  | [], key, v => [(key, v)]
  | (k, v') :: rest, key, v => if k = key then (key, v) :: rest else (k, v') :: setBuf rest key v

/-- Dictionary deletion (`del`). -/
def removeBuf : Registry → String → Registry
  | [], _ => []
  | (k, v) :: rest, key => if k = key then rest else (k, v) :: removeBuf rest key

/-- Entering the `open_file` context manager: fails fast when the server has not
been started; if a buffer for the URI exists its `ref_count` is incremented,
otherwise the file contents are read, a fresh buffer at version 0 with
`ref_count = 1` is registered, and `didOpen` is sent. The returned flag records
whether a `didOpen` notification was sent. -/
def open_file_enter (server_started : Bool) (reg : Registry) (uri : String)
    (fileContents : List Char) (languageId : String) : Except OpError (Registry × Bool) :=
  if server_started then
    match findBuf reg uri with
    | some fb => .ok (setBuf reg uri { fb with ref_count := fb.ref_count + 1 }, false)
    | none => .ok (setBuf reg uri (mkLSPFileBuffer uri fileContents 0 languageId 1), true)
  else .error .notStarted

/-- Leaving the `open_file` scope: decrement `ref_count`; when it reaches zero,
send `didClose` and remove the buffer. The returned flag records whether a
`didClose` notification was sent; a missing buffer is a `KeyError`. -/
def open_file_exit (reg : Registry) (uri : String) : Except OpError (Registry × Bool) :=
  match findBuf reg uri with
  | none => .error .keyError
  | some fb =>
    let fb := { fb with ref_count := fb.ref_count - 1 }
    if fb.ref_count = 0 then .ok (removeBuf reg uri, true)
    else .ok (setBuf reg uri fb, false)

/-- `insert_text_at_position(relative_file_path, line, column, text)`: requires
the server started and the buffer open (`assert uri in self.open_file_buffers`),
bumps the version, updates the contents in place via `TextUtils`, sends a
`didChange` (a notification with no observable client state, not modelled), and
returns the post-edit cursor position. -/
def insert_text_at_position (server_started : Bool) (reg : Registry) (uri : String)
    (line column : Nat) (text : List Char) : Except OpError (Registry × Position) :=
  if server_started then
    match findBuf reg uri with
    | none => .error .assertionFailed
    | some fb =>
      let fb := { fb with version := fb.version + 1 }
      let r := TextUtils.insert_text_at_position fb.contents line column text
      let fb := { fb with contents := r.1 }
      .ok (setBuf reg uri fb, ⟨r.2.1, r.2.2⟩)
  else .error .notStarted

/-- `delete_text_between_positions(relative_file_path, start, end)`: requires
the server started and the buffer open, bumps the version, updates the contents
via `TextUtils`, sends a `didChange` (not modelled), and returns the deleted
text. -/
def delete_text_between_positions (server_started : Bool) (reg : Registry) (uri : String)
    (startPos endPos : Position) : Except OpError (Registry × List Char) :=
  if server_started then
    match findBuf reg uri with
    | none => .error .assertionFailed
    | some fb =>
      let fb := { fb with version := fb.version + 1 }
      let r := TextUtils.delete_text_between_positions fb.contents
        startPos.line startPos.character endPos.line endPos.character
      let fb := { fb with contents := r.1 }
      .ok (setBuf reg uri fb, r.2)
  else .error .notStarted

/-! ## Repository filesystem model

Repository-relative paths are lists of path segments (Python's `Path.parts`);
the repository tree is a node tree with named files (with contents) and named
directories. -/

/-- A repository-relative path as its list of segments. -/
abbrev RelPath := List String

/-- A node of the repository tree. -/
inductive FSNode where
  | file (name : String) (contents : List Char)
  | dir (name : String) (children : List FSNode)
deriving Repr

/-- The name of a node. -/
def FSNode.name : FSNode → String
  | .file n _ => n
  | .dir n _ => n

/-- Resolve a non-empty relative path among directory entries. -/
def resolveIn : List FSNode → RelPath → Option FSNode
  | cs, [n] => cs.find? (fun c => c.name = n)
  | cs, n :: rest =>
    match cs.find? (fun c => c.name = n) with
    | some (.dir _ cs') => resolveIn cs' rest
    | _ => none
  | _, [] => none

/-- Resolve a relative path against the repository root (`[]` is the root
itself, Python's `"."`). -/
def resolve (root : FSNode) : RelPath → Option FSNode
  | [] => some root
  | p =>
    match root with
    | .dir _ cs => resolveIn cs p
    | .file _ _ => none

/-- Render a relative path with forward slashes, as `is_ignored_path` does
before pattern matching. -/
def joinPath (p : RelPath) : String := String.intercalate "/" p

/-! ## Ignore matcher (`is_ignored_path`) -/

/-- The inputs `is_ignored_path` consults besides the filesystem.
`isRelevantFilename` is modelled from the spec: the language's
source-extension matcher (`self.language.get_source_fn_matcher()`, an external
collaborator). `isIgnoredDirname` is `is_ignored_dirname`, whose base
implementation is `dirname.startswith('.')` and which subclasses override.
`matchesIgnoreSpec` is modelled from the spec: the compiled gitignore-style
pattern set (`pathspec`), a matcher in which "later patterns may re-include"
(spec 4.2). -/
structure IgnoreConfig where
  isRelevantFilename : String → Bool
  isIgnoredDirname : String → Bool
  matchesIgnoreSpec : String → Bool

/-- `is_ignored_path(relative_path, ignore_unsupported_files)`: raises
`FileNotFoundError` when the absolute path does not exist; otherwise returns
the OR of the unsupported-extension check (files only), the always-ignored
directory-name check of every directory component, and the gitignore pattern
match (directories are matched with a trailing slash). -/
def is_ignored_path (root : FSNode) (cfg : IgnoreConfig) (relative_path : RelPath)
    (ignore_unsupported_files : Bool) : Except OpError Bool :=
  match resolve root relative_path with
  | none => .error .fileNotFound
  | some node =>
    let isFile := match node with | .file _ _ => true | .dir _ _ => false
    if isFile && ignore_unsupported_files && !cfg.isRelevantFilename node.name then .ok true
    else
      let dirParts := if isFile then relative_path.dropLast else relative_path
      if dirParts.any cfg.isIgnoredDirname then .ok true
      else
        let normalized := joinPath relative_path
        let normalized := if isFile then normalized else normalized ++ "/"
        .ok (cfg.matchesIgnoreSpec normalized)

/-! ## Document-symbol cache (`request_document_symbols`) -/

/-- The cache key. The source builds the string `f"{relative_path}-{include_body}"`;
it is modelled as the pair itself. -/
abbrev CacheKey := String × Bool

/-- `_document_symbols_cache`: maps a key to `(file content hash, result)`.
The result type is abstract: it stands for the enriched
`(flat_all_symbol_list, root_nodes)` pair. -/
abbrev DocSymCache (α : Type) := List (CacheKey × (List Char × α))

/-- Cache lookup (`dict.get`). -/
def lookupCache {α : Type} : DocSymCache α → CacheKey → Option (List Char × α)
  | [], _ => none
  | (k, v) :: rest, key => if k = key then some v else lookupCache rest key

/-- Cache assignment. -/
def setCache {α : Type} : DocSymCache α → CacheKey → List Char × α → DocSymCache α
  | [], key, v => [(key, v)]
  | (k, v') :: rest, key, v => if k = key then (key, v) :: rest else (k, v') :: setCache rest key v

/-- The cache logic of `request_document_symbols`: under the cache lock, look
up `(relative_path, include_body)`; on a hit whose stored hash equals the open
buffer's `content_hash`, return the cached result without contacting the
server; otherwise send `textDocument/documentSymbol`. A `None` response yields
`([], [])` (here `emptyResult`) without touching the cache; otherwise the
enriched result (`response`, abstracting the enrichment pipeline) is stored
under the key together with the buffer's hash. The returned flag records
whether a server request was sent. -/
def request_document_symbols {α : Type} (cache : DocSymCache α) (relativePath : String)
    (includeBody : Bool) (bufferHash : List Char) (response : Option α) (emptyResult : α) :
    α × DocSymCache α × Bool :=
  let key : CacheKey := (relativePath, includeBody)
  match lookupCache cache key with
  | some (h, cached) =>
    if h = bufferHash then (cached, cache, false)
    else
      match response with
      | none => (emptyResult, cache, true)
      | some fresh => (fresh, setCache cache key (bufferHash, fresh), true)
  | none =>
    match response with
    | none => (emptyResult, cache, true)
    | some fresh => (fresh, setCache cache key (bufferHash, fresh), true)

/-! ## Locations, enrichment, and `request_references`

A file URI is modelled by the absolute path it denotes, as a segment list from
the filesystem root (`PathUtils.uri_to_path`, which percent-decodes the URI, is
external and is modelled as the identity on this abstract path). -/

/-- A `Location` as received from the server: URI and range. -/
structure RawLocation where
  uri : RelPath
  range : SymRange
deriving Repr, DecidableEq

/-- An enriched `Location`: `absolutePath` filled in from the URI and
`relativePath` present iff the absolute path lies within the repository root. -/
structure Location where
  uri : RelPath
  range : SymRange
  absolutePath : RelPath
  relativePath : Option RelPath
deriving Repr, DecidableEq

/-- Modelled from the spec: `PathUtils.get_relative_path` returns the path
relative to the repository root, and `relativePath` "is present iff
`absolutePath` is within the repository root" (spec 3). -/
def get_relative_path (absolutePath : RelPath) (repoRoot : RelPath) : Option RelPath :=
  if absolutePath.take repoRoot.length = repoRoot then some (absolutePath.drop repoRoot.length)
  else none

/-- `UriPathMapper.enrich_location`: fill in `absolutePath` from the URI and
`relativePath` when the location lies within the repository. -/
def enrich_location (repoRoot : RelPath) (loc : RawLocation) : Location :=
  { uri := loc.uri, range := loc.range, absolutePath := loc.uri,
    relativePath := get_relative_path loc.uri repoRoot }

/-- A structured LSP error (`Error(code, message)`). -/
structure LspError where
  code : Int
  message : String
deriving Repr, DecidableEq

/-- The parameters `_send_references_request` builds for
`textDocument/references`. -/
structure ReferenceParams where
  uri : RelPath
  position : Position
  includeDeclaration : Bool
deriving Repr, DecidableEq

/-- `_send_references_request`: the request carries the file URI, the position,
and `context.includeDeclaration = False`. -/
def buildReferencesRequest (repoRoot : RelPath) (relative_file_path : RelPath)
    (line column : Nat) : ReferenceParams :=
  { uri := repoRoot ++ relative_file_path, position := ⟨line, column⟩,
    includeDeclaration := false }

/-- The enrichment-and-filter loop of `request_references`: each location is
enriched; a location with a `relativePath` for which `is_ignored_path` holds is
dropped; a `FileNotFoundError` from `is_ignored_path` propagates. -/
def filterReferences (repoRoot : RelPath) (fsRoot : FSNode) (cfg : IgnoreConfig) :
    List RawLocation → Except OpError (List Location)
  | [] => .ok []
  | item :: rest =>
    let enriched := enrich_location repoRoot item
    match enriched.relativePath with
    | some rp =>
      match is_ignored_path fsRoot cfg rp true with
      | .error e => .error e
      | .ok true => filterReferences repoRoot fsRoot cfg rest
      | .ok false => (filterReferences repoRoot fsRoot cfg rest).map (enriched :: ·)
    | none => (filterReferences repoRoot fsRoot cfg rest).map (enriched :: ·)

/-- `request_references(relative_file_path, line, column)`: fails fast when the
server is not started; an LSP error with code `-32603` is re-raised as a typed
runtime error carrying the originating file, line and column, other LSP errors
propagate; a `None` response yields `[]`; otherwise the locations are enriched
and filtered. `response` stands for the outcome of
`_send_references_request`. -/
def request_references (server_started : Bool) (repoRoot : RelPath) (fsRoot : FSNode)
    (cfg : IgnoreConfig) (relative_file_path : RelPath) (line column : Nat)
    (response : Except LspError (Option (List RawLocation))) : Except OpError (List Location) :=
  if server_started then
    match response with
    | .error e =>
      if e.code = -32603 then
        .error (.lspInternalOnReferences (joinPath relative_file_path) line column)
      else .error (.lspError e.code e.message)
    | .ok none => .ok []
    | .ok (some items) => filterReferences repoRoot fsRoot cfg items
  else .error .notStarted

/-! ## Not-started gating of the facade operations -/

/-- `request_workspace_symbol(query)`: performs no `server_started` check at
all; the response (abstracting the enriched symbol list) is returned as-is. -/
def request_workspace_symbol {α : Type} (server_started : Bool) (response : Option α) :
    Except OpError (Option α) :=
  .ok response

/-- `request_document_diagnostic(relative_file_path)`: when the server is not
started, logs a warning and returns `None` — it does not raise; otherwise the
response is returned (`None` stays `None`). -/
def request_document_diagnostic {α : Type} (server_started : Bool) (response : Option α) :
    Except OpError (Option α) :=
  if server_started then .ok response else .ok none

/-- `request_code_action(...)`: when the server is not started, logs a warning
and returns `None` — it does not raise; otherwise the response is returned. -/
def request_code_action {α : Type} (server_started : Bool) (response : Option α) :
    Except OpError (Option α) :=
  if server_started then .ok response else .ok none

/-! ## `request_containing_symbol` -/

/-- A flattened document symbol as `request_containing_symbol` sees it after
the jedi/pyright normalization (every symbol is given a `location` whose range
is the symbol's range; the function then reads `s["location"]["range"]`, here
simply `range`). -/
structure FlatSym where
  name : String
  kind : SymbolKind
  range : SymRange
deriving Repr, DecidableEq

/-- Python's `content.split("\n")`: the (never empty) list of lines. -/
def splitLinesAux : List Char → List Char → List (List Char)
  | acc, [] => [acc.reverse]
  | acc, c :: cs => if c = '\n' then acc.reverse :: splitLinesAux [] cs else splitLinesAux (c :: acc) cs

/-- Split a text into its lines at newline characters. -/
def splitLines (cs : List Char) : List (List Char) := splitLinesAux [] cs

/-- The position test of `request_containing_symbol`: in non-strict mode the
line must satisfy `end.line ≥ line ≥ start.line` and, when a column is given
and the line is the start line, `column ≥ start.character`; strict mode uses
strict inequalities on the start side. -/
def is_position_in_range (strict : Bool) (line : Nat) (column : Option Nat) (r : SymRange) : Bool :=
  let lineCondition :=
    if strict then decide (r.endPos.line ≥ line ∧ line > r.start.line)
    else decide (r.endPos.line ≥ line ∧ line ≥ r.start.line)
  let columnCondition :=
    match column with
    | some col =>
      if line = r.start.line then
        if strict then decide (col > r.start.character) else decide (col ≥ r.start.character)
      else true
    | none => true
  lineCondition && columnCondition

/-- Python's `max(..., key=lambda s: s["location"]["range"]["start"]["line"])`:
the first element attaining the maximal start line. -/
def maxByStartLine : FlatSym → List FlatSym → FlatSym
  | best, [] => best
  | best, s :: rest =>
    maxByStartLine (if s.range.start.line > best.range.start.line then s else best) rest

/-- The pure core of `request_containing_symbol(relative_file_path, line,
column, strict)`: an empty (all-whitespace) target line yields `None` (an
out-of-range line is an `IndexError`); candidate containers are the symbols of
kind Method, Function or Class whose range spans more than one line, together
with all symbols of kind Variable; among the candidates whose range contains
the position, the one with the greatest start line is returned. `symbols` is
the flat list from `request_document_symbols`. -/
def request_containing_symbol (contents : List Char) (symbols : List FlatSym)
    (line : Nat) (column : Option Nat) (strict : Bool) : Except OpError (Option FlatSym) :=
  match (splitLines contents).get? line with
  | none => .error .indexError
  | some targetLine =>
    if targetLine.all Char.isWhitespace then .ok none
    else
      let candidate_containers :=
        symbols.filter (fun s =>
          (s.kind == SymbolKind.method || s.kind == SymbolKind.function ||
            s.kind == SymbolKind.cls) && s.range.start.line != s.range.endPos.line)
        ++ symbols.filter (fun s => s.kind == SymbolKind.var)
      if candidate_containers.isEmpty then .ok none
      else
        match candidate_containers.filter (fun s => is_position_in_range strict line column s.range) with
        | [] => .ok none
        | c :: rest => .ok (some (maxByStartLine c rest))

/-! ## Full symbol tree (`request_full_symbol_tree` / `process_directory`)

The traversal is parameterized by `ignored`, the Boolean result of
`self.is_ignored_path` on existing paths, and by `docSymbols`, the root symbols
that `request_document_symbols` yields for a file. Parent back-references are
cyclic in the source and are not representable in a tree; they are omitted. -/

/-- A `UnifiedSymbolInformation` node of the symbol tree: name, kind, location
(`relativePath` and range), and children. -/
inductive UNode where
  | mk (name : String) (kind : SymbolKind) (relativePath : RelPath) (range : SymRange)
      (children : List UNode)
deriving Repr

/-- The name of a symbol node. -/
def UNode.name : UNode → String
  | .mk n _ _ _ _ => n

/-- The kind of a symbol node. -/
def UNode.kind : UNode → SymbolKind
  | .mk _ k _ _ _ => k

/-- The relative path of a symbol node. -/
def UNode.relativePath : UNode → RelPath
  | .mk _ _ p _ _ => p

/-- The children of a symbol node. -/
def UNode.children : UNode → List UNode
  | .mk _ _ _ _ cs => cs

/-- The `(0,0)-(0,0)` range given to directory Package symbols. -/
def zeroRange : SymRange := ⟨⟨0, 0⟩, ⟨0, 0⟩⟩

/-- `_get_range_from_file_content`: the file range spans from `(0, 0)` to
`(number of lines, length of the last line)`. -/
def get_range_from_file_content (cs : List Char) : SymRange :=
  let lines := splitLines cs
  ⟨⟨0, 0⟩, ⟨lines.length, ((lines.getLast?).getD []).length⟩⟩

/-- `os.path.splitext(name)[0]`: the file name with its final extension
removed; leading dots do not start an extension. -/
def stem (s : String) : String :=
  let cs := s.data
  let lead := cs.takeWhile (fun c => c = '.')
  let rest := cs.dropWhile (fun c => c = '.')
  if rest.contains '.' then
    ⟨lead ++ ((rest.reverse.dropWhile (fun c => c ≠ '.')).drop 1).reverse⟩
  else s

/-- `process_directory(rel_dir_path)`: skip the directory when it is ignored;
otherwise produce one Package symbol for it whose children are, in listing
order, the results for each non-ignored entry — recursively processed
directories, and for each non-ignored file a File symbol (named by the file's
stem, ranged over its contents) whose children are the file's document-symbol
roots. The second component records, in visiting order, the files for which
`request_document_symbols` was requested. -/
def process_directory (ignored : RelPath → Bool) (docSymbols : RelPath → List UNode) :
    RelPath → FSNode → List UNode × List RelPath
  | _, .file _ _ => ([], [])
  | relPath, .dir name children =>
    if ignored relPath then ([], [])
    else
      let r := processEntries relPath children
      ([UNode.mk name SymbolKind.package relPath zeroRange r.1], r.2)
where
  processEntries : RelPath → List FSNode → List UNode × List RelPath
    | _, [] => ([], [])
    | relPath, entry :: rest =>
      let childRel := relPath ++ [entry.name]
      let r := processEntries relPath rest
      if ignored childRel then r
      else
        match entry with
        | .dir _ _ =>
          let d := process_directory ignored docSymbols childRel entry
          (d.1 ++ r.1, d.2 ++ r.2)
        | .file fname fcontents =>
          let fileSym := UNode.mk (stem fname) SymbolKind.file childRel
            (get_range_from_file_content fcontents) (docSymbols childRel)
          (fileSym :: r.1, childRel :: r.2)

/-- `request_full_symbol_tree(within_relative_path, include_body)`: a missing
path raises `FileNotFoundError`; an explicitly passed ignored file logs at
error level and yields the empty result; a non-ignored file yields its
document-symbol roots; otherwise the directory walk starts at the given path
(the repository root when no path is passed). Result: the root symbols, the
files visited by `request_document_symbols`, and whether an error-level message
was logged. -/
def request_full_symbol_tree (ignored : RelPath → Bool) (docSymbols : RelPath → List UNode)
    (root : FSNode) (within : Option RelPath) :
    Except OpError (List UNode × List RelPath × Bool) :=
  match within with
  | some p =>
    match resolve root p with
    | none => .error .fileNotFound
    | some (.file _ _) =>
      if ignored p then .ok ([], [], true)
      else .ok (docSymbols p, [p], false)
    | some nd =>
      let r := process_directory ignored docSymbols p nd
      .ok (r.1, r.2, false)
  | none =>
    let r := process_directory ignored docSymbols [] root
    .ok (r.1, r.2, false)

/-- The relative paths of the Package and File nodes of a produced tree; the
collection does not descend below File nodes (whose children are the
document symbols of the file, not traversal scaffolding). -/
def collectPF : UNode → List RelPath
  | .mk _ .package rp _ children => rp :: collectPFList children
  | .mk _ .file rp _ _ => [rp]
  | .mk _ _ _ _ _ => []
where
  collectPFList : List UNode → List RelPath
    | [] => []
    | n :: ns => collectPF n ++ collectPFList ns

/-- All file paths of a subtree rooted at path `p`. -/
def filePaths : RelPath → FSNode → List RelPath
  | p, .file _ _ => [p]
  | p, .dir _ cs => filePathsList p cs
where
  filePathsList : RelPath → List FSNode → List RelPath
    | _, [] => []
    | p, c :: rest => filePaths (p ++ [c.name]) c ++ filePathsList p rest

/-- A well-formed repository tree: sibling names are distinct, recursively. -/
def wfFS : FSNode → Bool
  | .file _ _ => true
  | .dir _ cs => (cs.map FSNode.name).Nodup && wfFSList cs
where
  wfFSList : List FSNode → Bool
    | [] => true
    | c :: rest => wfFS c && wfFSList rest

/-! ## Invariants and concrete instances -/

/-- The registry invariant of spec 3: a buffer exists in `open_file_buffers`
only with `ref_count ≥ 1`. -/
def RegInvariant (reg : Registry) : Prop := ∀ kb ∈ reg, 1 ≤ (Prod.snd kb).ref_count

/-- An ignore configuration whose extension matcher accepts everything and
whose pattern set and always-ignored-dirname predicate match nothing. -/
def plainCfg : IgnoreConfig :=
  { isRelevantFilename := fun _ => true, isIgnoredDirname := fun _ => false,
    matchesIgnoreSpec := fun _ => false }

/-- An empty repository. -/
def emptyFS : FSNode := .dir "repo" []

/-- A document-symbol oracle returning no symbols for any file. -/
def noDocSyms : RelPath → List UNode := fun _ => []

/-- The URI of the single-file demo registry. -/
def c1uri : String := "file:///repo/a.py"

/-- A registry holding one freshly opened buffer with contents `"a"`. -/
def c1reg : Registry := [(c1uri, mkLSPFileBuffer c1uri ("a".data) 0 "python" 1)]

/-- The buffer after inserting `"b"` at `(0, 1)` into the demo registry. -/
def c1buf : Option LSPFileBuffer :=
  match insert_text_at_position true c1reg c1uri 0 1 ("b".data) with
  | .ok r => findBuf r.1 c1uri
  | .error _ => none

/-- A two-line buffer used for the edit round trip. -/
def c9buf : LSPFileBuffer := mkLSPFileBuffer "u" ("ab\ncd".data) 0 "python" 1

/-- A registry holding the round-trip buffer. -/
def c9reg : Registry := [("u", c9buf)]

/-- The registry after inserting `"xy"` at `(1, 1)`. -/
def c9regMid : Registry := [("u", { c9buf with version := 1, contents := "ab\ncxyd".data })]

/-- The registry after deleting the inserted range again. -/
def c9regEnd : Registry := [("u", { c9buf with version := 2 })]

/-- A one-line Variable symbol spanning `(0,0)-(0,5)`. -/
def c2xVar : FlatSym := { name := "x", kind := .var, range := ⟨⟨0, 0⟩, ⟨0, 5⟩⟩ }

/-- A two-line Method symbol spanning `(0,0)-(1,6)`. -/
def c2wMethod : FlatSym := { name := "f", kind := .method, range := ⟨⟨0, 0⟩, ⟨1, 6⟩⟩ }

/-- A one-file repository `{a.py}`. -/
def c4fs : FSNode := .dir "repo" [.file "a.py" []]

/-- A reference location outside the repository root. -/
def c4outsideLoc : RawLocation := { uri := ["lib", "x.py"], range := zeroRange }

/-- A reference location on `repo/a.py`. -/
def c4insideLoc : RawLocation := { uri := ["repo", "a.py"], range := zeroRange }

/-- A repository whose `vendor` directory contains `c.py`. -/
def c6fs : FSNode := .dir "repo" [.dir "vendor" [.file "c.py" []]]

/-- An ignore predicate that ignores the `vendor` directory itself but not the
file `vendor/c.py` (gitignore re-inclusion, spec 4.2: "later patterns may
re-include"). -/
def c6ign : RelPath → Bool := fun p => p == ["vendor"]

/-- The repository `{src/a.py, src/b.py, vendor/c.py}` of scenario S5. -/
def c7fs : FSNode :=
  .dir "repo" [.dir "src" [.file "a.py" [], .file "b.py" []], .dir "vendor" [.file "c.py" []]]

/-- The scenario-S5 ignore predicate: everything under `vendor` is ignored. -/
def c7ign : RelPath → Bool := fun p => p.head? == some "vendor"

/-- The root symbols produced for the scenario-S5 repository. -/
def c7syms : List UNode :=
  match request_full_symbol_tree c7ign noDocSyms c7fs none with
  | .ok r => r.1
  | .error _ => []

/-- The visited-files list produced for the scenario-S5 repository. -/
def c7visited : List RelPath :=
  match request_full_symbol_tree c7ign noDocSyms c7fs none with
  | .ok r => r.2.1
  | .error _ => []

/-! ## Lemmas about the text-edit offset arithmetic -/

namespace TextUtils

theorem lineStartOffset_nil (n : Nat) : lineStartOffset [] n = 0 := by
  cases n <;> simp [lineStartOffset]

theorem lineStartOffset_zero (cs : List Char) : lineStartOffset cs 0 = 0 := by
  cases cs <;> simp [lineStartOffset]

theorem lineStartOffset_cons_nl (cs : List Char) (n : Nat) :
    lineStartOffset ('
' :: cs) (n + 1) = 1 + lineStartOffset cs n := by
  simp [lineStartOffset]

theorem lineStartOffset_cons (c : Char) (cs : List Char) (n : Nat) (hc : c ≠ '
') :
    lineStartOffset (c :: cs) (n + 1) = 1 + lineStartOffset cs (n + 1) := by
  simp [lineStartOffset, hc]

theorem lineStartOffset_le : ∀ (cs : List Char) (n : Nat), lineStartOffset cs n ≤ cs.length
  | _, 0 => by simp [lineStartOffset_zero]
  | [], n + 1 => by simp [lineStartOffset_nil]
  | c :: cs, n + 1 => by
    by_cases hc : c = '
'
    · subst hc
      rw [lineStartOffset_cons_nl]
      have := lineStartOffset_le cs n
      simp only [List.length_cons]
      omega
    · rw [lineStartOffset_cons c cs n hc]
      have := lineStartOffset_le cs (n + 1)
      simp only [List.length_cons]
      omega

theorem lineStartOffset_append :
    ∀ (cs ds : List Char) (n : Nat), n ≤ cs.count '
' →
      lineStartOffset (cs ++ ds) n = lineStartOffset cs n
  | _, _, 0, _ => by simp [lineStartOffset_zero]
  | [], ds, n + 1, h => by simp at h
  | c :: cs, ds, n + 1, h => by
    by_cases hc : c = '
'
    · subst hc
      have h' : n ≤ cs.count '
' := by
        simp [List.count_cons] at h
        omega
      rw [List.cons_append, lineStartOffset_cons_nl, lineStartOffset_cons_nl,
        lineStartOffset_append cs ds n h']
    · have h' : n + 1 ≤ cs.count '
' := by
        simpa [List.count_cons, hc] using h
      rw [List.cons_append, lineStartOffset_cons c _ n hc, lineStartOffset_cons c cs n hc,
        lineStartOffset_append cs ds (n + 1) h']

theorem lineStartOffset_append_full :
    ∀ (cs ds : List Char) (m : Nat), 1 ≤ m →
      lineStartOffset (cs ++ ds) (cs.count '
' + m) = cs.length + lineStartOffset ds m
  | [], ds, m, _ => by simp
  | c :: cs, ds, m, hm => by
    obtain ⟨m', rfl⟩ : ∃ m', m = m' + 1 := ⟨m - 1, by omega⟩
    by_cases hc : c = '
'
    · subst hc
      have hcount : (('
' : Char) :: cs).count '
' = cs.count '
' + 1 := by
        simp [List.count_cons]
      have harith : cs.count '
' + 1 + (m' + 1) = (cs.count '
' + (m' + 1)) + 1 := by omega
      rw [hcount, harith, List.cons_append, lineStartOffset_cons_nl,
        lineStartOffset_append_full cs ds (m' + 1) (by omega)]
      simp only [List.length_cons]
      omega
    · have hcount : (c :: cs).count '
' = cs.count '
' := by
        simp [List.count_cons, hc]
      have harith : cs.count '
' + (m' + 1) = (cs.count '
' + m') + 1 := by omega
      rw [hcount, harith, List.cons_append, lineStartOffset_cons c _ (cs.count '
' + m') hc]
      have harith2 : cs.count '
' + m' + 1 = cs.count '
' + (m' + 1) := by omega
      rw [harith2, lineStartOffset_append_full cs ds (m' + 1) (by omega)]
      simp only [List.length_cons]
      omega

/-- Round trip on an explicitly split text: inserting at the seam of
`pre ++ suf` and deleting from the original position to the returned one
removes exactly the inserted text. -/
theorem insert_delete_round_split (pre suf text : List Char) (line col : Nat)
    (hc : pre.count '
' = line)
    (hl : pre.length = lineStartOffset pre line + col) :
    delete_text_between_positions (insert_text_at_position (pre ++ suf) line col text).1 line col
      (insert_text_at_position (pre ++ suf) line col text).2.1
      (insert_text_at_position (pre ++ suf) line col text).2.2 = (pre ++ suf, text) := by
  have hle : line ≤ pre.count '
' := le_of_eq hc.symm
  have hoff : posToOffset (pre ++ suf) line col = pre.length := by
    unfold posToOffset
    rw [lineStartOffset_append pre suf line hle]
    omega
  have ho1 : posToOffset (pre ++ (text ++ suf)) line col = pre.length := by
    unfold posToOffset
    rw [lineStartOffset_append pre (text ++ suf) line hle]
    omega
  simp only [insert_text_at_position, delete_text_between_positions, hoff, List.take_left,
    List.drop_left]
  by_cases hz : text.count '
' = 0
  · rw [if_pos hz]
    simp only [List.append_assoc, ho1]
    have ho2 : posToOffset (pre ++ (text ++ suf)) line (col + text.length)
        = pre.length + text.length := by
      unfold posToOffset
      rw [lineStartOffset_append pre (text ++ suf) line hle]
      omega
    rw [ho2]
    refine Prod.ext ?_ ?_
    · show List.take pre.length (pre ++ (text ++ suf)) ++
        List.drop (pre.length + text.length) (pre ++ (text ++ suf)) = pre ++ suf
      rw [List.take_left]
      have hlen : pre.length + text.length = (pre ++ text).length := by
        simp [List.length_append]
      rw [hlen, ← List.append_assoc, List.drop_left]
    · show List.take (pre.length + text.length - pre.length)
          (List.drop pre.length (pre ++ (text ++ suf))) = text
      rw [List.drop_left, Nat.add_sub_cancel_left, List.take_left]
  · rw [if_neg hz]
    simp only [List.append_assoc, ho1]
    have hnl1 : 1 ≤ text.count '
' := by omega
    have hlstext : lineStartOffset text (text.count '
') ≤ text.length :=
      lineStartOffset_le text (text.count '
')
    have hcount2 : (pre ++ text).count '
' = line + text.count '
' := by
      rw [List.count_append, hc]
    have hls : lineStartOffset (pre ++ (text ++ suf)) (line + text.count '
')
        = pre.length + lineStartOffset text (text.count '
') := by
      rw [← List.append_assoc]
      rw [lineStartOffset_append (pre ++ text) suf (line + text.count '
')
        (le_of_eq hcount2.symm)]
      rw [← hc, lineStartOffset_append_full pre text (text.count '
') hnl1]
    have ho2 : posToOffset (pre ++ (text ++ suf)) (line + text.count '
')
        (text.length - lineStartOffset text (text.count '
')) = pre.length + text.length := by
      unfold posToOffset
      rw [hls]
      omega
    rw [ho2]
    refine Prod.ext ?_ ?_
    · show List.take pre.length (pre ++ (text ++ suf)) ++
        List.drop (pre.length + text.length) (pre ++ (text ++ suf)) = pre ++ suf
      rw [List.take_left]
      have hlen : pre.length + text.length = (pre ++ text).length := by
        simp [List.length_append]
      rw [hlen, ← List.append_assoc, List.drop_left]
    · show List.take (pre.length + text.length - pre.length)
          (List.drop pre.length (pre ++ (text ++ suf))) = text
      rw [List.drop_left, Nat.add_sub_cancel_left, List.take_left]

/-- The round trip on any text with a valid position: insertion followed by
deletion over the inserted range restores the contents and returns the
inserted text as the deleted text. -/
theorem insert_delete_round (cs : List Char) (line col : Nat) (text : List Char)
    (h : ValidPos cs line col) :
    delete_text_between_positions (insert_text_at_position cs line col text).1 line col
        (insert_text_at_position cs line col text).2.1
        (insert_text_at_position cs line col text).2.2 = (cs, text) := by
  obtain ⟨h2, h1⟩ := h
  have hsplit := List.take_append_drop (posToOffset cs line col) cs
  have hlen : (cs.take (posToOffset cs line col)).length = posToOffset cs line col := by
    rw [List.length_take]
    omega
  have hle : line ≤ (cs.take (posToOffset cs line col)).count '
' := le_of_eq h1.symm
  have hl : (cs.take (posToOffset cs line col)).length
      = lineStartOffset (cs.take (posToOffset cs line col)) line + col := by
    rw [hlen]
    have : lineStartOffset (cs.take (posToOffset cs line col)) line
        = lineStartOffset cs line := by
      conv_rhs => rw [← hsplit]
      rw [lineStartOffset_append _ _ line hle]
    rw [this]
    rfl
  have := insert_delete_round_split (cs.take (posToOffset cs line col))
    (cs.drop (posToOffset cs line col)) text line col h1 hl
  rw [hsplit] at this
  exact this

end TextUtils

/-! ## Lemmas about the buffer registry -/

theorem findBuf_mem : ∀ (reg : Registry) (k : String) (v : LSPFileBuffer),
    findBuf reg k = some v → (k, v) ∈ reg
  | [], _, _, h => by simp [findBuf] at h
  | (k', v') :: rest, k, v, h => by
    simp only [findBuf] at h
    split at h
    · rename_i hk
      subst hk
      cases h
      exact List.mem_cons_self _ _
    · exact List.mem_cons_of_mem _ (findBuf_mem rest k v h)

theorem findBuf_setBuf_self : ∀ (reg : Registry) (k : String) (v : LSPFileBuffer),
    findBuf (setBuf reg k v) k = some v
  | [], k, v => by simp [setBuf, findBuf]
  | (k', v') :: rest, k, v => by
    simp only [setBuf]
    split
    · simp [findBuf]
    · rename_i hk
      simp only [findBuf, if_neg hk]
      exact findBuf_setBuf_self rest k v

theorem mem_setBuf : ∀ (reg : Registry) (k : String) (v : LSPFileBuffer) (x : String × LSPFileBuffer),
    x ∈ setBuf reg k v → x ∈ reg ∨ x = (k, v)
  | [], k, v, x, h => by
    simp [setBuf] at h
    exact Or.inr h
  | (k', v') :: rest, k, v, x, h => by
    simp only [setBuf] at h
    split at h
    · rcases List.mem_cons.mp h with h | h
      · exact Or.inr h
      · exact Or.inl (List.mem_cons_of_mem _ h)
    · rcases List.mem_cons.mp h with h | h
      · exact Or.inl (h ▸ List.mem_cons_self _ _)
      · rcases mem_setBuf rest k v x h with h | h
        · exact Or.inl (List.mem_cons_of_mem _ h)
        · exact Or.inr h

theorem mem_removeBuf : ∀ (reg : Registry) (k : String) (x : String × LSPFileBuffer),
    x ∈ removeBuf reg k → x ∈ reg
  | [], _, _, h => by simp [removeBuf] at h
  | (k', v') :: rest, k, x, h => by
    simp only [removeBuf] at h
    split at h
    · exact List.mem_cons_of_mem _ h
    · rcases List.mem_cons.mp h with h | h
      · exact h ▸ List.mem_cons_self _ _
      · exact List.mem_cons_of_mem _ (mem_removeBuf rest k x h)

theorem removeBuf_setBuf_fresh : ∀ (reg : Registry) (k : String) (v : LSPFileBuffer),
    findBuf reg k = none → removeBuf (setBuf reg k v) k = reg
  | [], k, v, _ => by simp [setBuf, removeBuf]
  | (k', v') :: rest, k, v, h => by
    simp only [findBuf] at h
    split at h
    · cases h
    · rename_i hk
      simp only [setBuf, if_neg hk, removeBuf, if_neg hk]
      rw [removeBuf_setBuf_fresh rest k v h]

/-! ## C10 — `is_ignored_path` on a missing path -/

/-- C10: `is_ignored_path` is not total on arbitrary relative paths: whenever
the relative path does not resolve to an existing entry of the repository
tree, it raises `FileNotFoundError` instead of returning a Boolean. -/
theorem c10_is_ignored_path_raises_on_missing_path
    (root : FSNode) (cfg : IgnoreConfig) (p : RelPath) (ignoreUnsupported : Bool)
    (h : resolve root p = none) :
    is_ignored_path root cfg p ignoreUnsupported = .error .fileNotFound := by
  unfold is_ignored_path
  rw [h]

theorem c10_witness :
    resolve emptyFS ["missing.py"] = none ∧
    is_ignored_path emptyFS plainCfg ["missing.py"] true = .error .fileNotFound :=
  ⟨rfl, c10_is_ignored_path_raises_on_missing_path emptyFS plainCfg ["missing.py"] true rfl⟩

/-! ## C8 — not-started gating of the facade operations -/

/-- C8 counterexample: invoked before `startServer`,
`request_document_diagnostic` and `request_code_action` return `None` rather
than raising, and `request_workspace_symbol` performs no check at all and
succeeds — so not every public operation fails fast with the typed
not-started error. -/
theorem c8_counterexample :
    request_document_diagnostic false (some (0 : Nat)) = .ok none ∧
    request_code_action false (some (0 : Nat)) = .ok none ∧
    request_workspace_symbol false (some (0 : Nat)) = .ok (some 0) ∧
    ∀ e : OpError, request_workspace_symbol false (some (0 : Nat)) ≠ .error e :=
  ⟨rfl, rfl, rfl, fun _ h => Except.noConfusion h⟩

/-- C8 amended: the buffer and reference operations invoked before
`startServer` raise the typed not-started error, but
`request_document_diagnostic` and `request_code_action` merely log a warning
and return `None`, and `request_workspace_symbol` performs no `server_started`
check at all (its behaviour does not depend on the flag). -/
theorem c8_amended_not_started_gating :
    (∀ (reg : Registry) (uri : String) (contents : List Char) (lid : String),
      open_file_enter false reg uri contents lid = .error .notStarted) ∧
    (∀ (reg : Registry) (uri : String) (line column : Nat) (text : List Char),
      insert_text_at_position false reg uri line column text = .error .notStarted) ∧
    (∀ (reg : Registry) (uri : String) (s e : Position),
      delete_text_between_positions false reg uri s e = .error .notStarted) ∧
    (∀ (repoRoot : RelPath) (fs : FSNode) (cfg : IgnoreConfig) (p : RelPath) (l c : Nat)
        (resp : Except LspError (Option (List RawLocation))),
      request_references false repoRoot fs cfg p l c resp = .error .notStarted) ∧
    (∀ (α : Type) (r : Option α), request_document_diagnostic false r = .ok none) ∧
    (∀ (α : Type) (r : Option α), request_code_action false r = .ok none) ∧
    (∀ (α : Type) (started : Bool) (r : Option α),
      request_workspace_symbol started r = request_workspace_symbol true r) :=
  ⟨fun _ _ _ _ => rfl, fun _ _ _ _ _ => rfl, fun _ _ _ _ => rfl, fun _ _ _ _ _ _ _ => rfl,
   fun _ _ => rfl, fun _ _ => rfl, fun _ _ _ => rfl⟩

/-! ## C3 — hash-gated document-symbol cache -/

/-- C3: a `request_document_symbols` lookup returns the cached value iff the
entry's stored content hash equals the open buffer's `content_hash` (and then
sends no request and leaves the cache unchanged); when the hashes differ, or
there is no entry, a server request is sent and the entry is overwritten with
the buffer's hash and the fresh result — a stale entry is never served (with a
`None` server response the empty result is returned and the stale entry is
left in place, still never served). -/
theorem c3_cache_hash_gating {α : Type} (cache : DocSymCache α) (rp : String) (ib : Bool)
    (bufferHash : List Char) (response : Option α) (emptyResult : α) :
    (∀ h cached, lookupCache cache (rp, ib) = some (h, cached) → h = bufferHash →
      request_document_symbols cache rp ib bufferHash response emptyResult
        = (cached, cache, false)) ∧
    (∀ h cached, lookupCache cache (rp, ib) = some (h, cached) → h ≠ bufferHash →
      ∀ fresh, response = some fresh →
        request_document_symbols cache rp ib bufferHash response emptyResult
          = (fresh, setCache cache (rp, ib) (bufferHash, fresh), true)) ∧
    (∀ h cached, lookupCache cache (rp, ib) = some (h, cached) → h ≠ bufferHash →
      response = none →
        request_document_symbols cache rp ib bufferHash response emptyResult
          = (emptyResult, cache, true)) ∧
    (lookupCache cache (rp, ib) = none → ∀ fresh, response = some fresh →
      request_document_symbols cache rp ib bufferHash response emptyResult
        = (fresh, setCache cache (rp, ib) (bufferHash, fresh), true)) ∧
    (lookupCache cache (rp, ib) = none → response = none →
      request_document_symbols cache rp ib bufferHash response emptyResult
        = (emptyResult, cache, true)) := by
  refine ⟨?_, ?_, ?_, ?_, ?_⟩
  · intro h cached hl he
    subst he
    simp [request_document_symbols, hl]
  · intro h cached hl he fresh hr
    subst hr
    simp [request_document_symbols, hl, he]
  · intro h cached hl he hr
    subst hr
    simp [request_document_symbols, hl, he]
  · intro hl fresh hr
    subst hr
    simp [request_document_symbols, hl]
  · intro hl hr
    subst hr
    simp [request_document_symbols, hl]

theorem c3_witness :
    (request_document_symbols [(("a.py", false), ("h1".data, 7))] "a.py" false
        ("h1".data) (some 9) (0 : Nat) = (7, [(("a.py", false), ("h1".data, 7))], false)) ∧
    (request_document_symbols [(("a.py", false), ("h1".data, 7))] "a.py" false
        ("h2".data) (some 9) (0 : Nat) = (9, [(("a.py", false), ("h2".data, 9))], true)) ∧
    (request_document_symbols ([] : DocSymCache Nat) "a.py" false ("h2".data) (some 9) 0
        = (9, [(("a.py", false), ("h2".data, 9))], true)) :=
  ⟨(c3_cache_hash_gating _ _ _ _ _ _).1 ("h1".data) 7 rfl rfl,
   by
    have := (c3_cache_hash_gating [(("a.py", false), ("h1".data, 7))] "a.py" false
      ("h2".data) (some 9) (0 : Nat)).2.1 ("h1".data) 7 rfl (by decide) 9 rfl
    simpa [setCache] using this,
   (c3_cache_hash_gating ([] : DocSymCache Nat) "a.py" false ("h2".data) (some 9) 0).2.2.2.1
     rfl 9 rfl⟩

/-! ## Evaluation lemmas for the buffer operations -/

theorem open_file_enter_existing (reg : Registry) (uri : String) (contents : List Char)
    (lid : String) (fb : LSPFileBuffer) (hfind : findBuf reg uri = some fb) :
    open_file_enter true reg uri contents lid
      = .ok (setBuf reg uri { fb with ref_count := fb.ref_count + 1 }, false) := by
  simp [open_file_enter, hfind]

theorem open_file_enter_fresh (reg : Registry) (uri : String) (contents : List Char)
    (lid : String) (hfind : findBuf reg uri = none) :
    open_file_enter true reg uri contents lid
      = .ok (setBuf reg uri (mkLSPFileBuffer uri contents 0 lid 1), true) := by
  simp [open_file_enter, hfind]

theorem open_file_exit_last (reg : Registry) (uri : String) (fb : LSPFileBuffer)
    (hfind : findBuf reg uri = some fb) (hrc : fb.ref_count = 1) :
    open_file_exit reg uri = .ok (removeBuf reg uri, true) := by
  simp [open_file_exit, hfind, hrc]

theorem open_file_exit_shared (reg : Registry) (uri : String) (fb : LSPFileBuffer)
    (hfind : findBuf reg uri = some fb) (hrc : 2 ≤ fb.ref_count) :
    open_file_exit reg uri
      = .ok (setBuf reg uri { fb with ref_count := fb.ref_count - 1 }, false) := by
  have hz : fb.ref_count - 1 ≠ 0 := by omega
  simp [open_file_exit, hfind, hz]

theorem insert_text_at_position_eq (reg : Registry) (uri : String) (line col : Nat)
    (text : List Char) (b : LSPFileBuffer) (hfind : findBuf reg uri = some b) :
    insert_text_at_position true reg uri line col text
      = .ok (setBuf reg uri
          { b with
            version := b.version + 1
            contents := (TextUtils.insert_text_at_position b.contents line col text).1 },
          ⟨(TextUtils.insert_text_at_position b.contents line col text).2.1,
           (TextUtils.insert_text_at_position b.contents line col text).2.2⟩) := by
  simp [insert_text_at_position, hfind]

theorem delete_text_between_positions_eq (reg : Registry) (uri : String) (s e : Position)
    (b : LSPFileBuffer) (hfind : findBuf reg uri = some b) :
    delete_text_between_positions true reg uri s e
      = .ok (setBuf reg uri
          { b with
            version := b.version + 1
            contents := (TextUtils.delete_text_between_positions b.contents
              s.line s.character e.line e.character).1 },
          (TextUtils.delete_text_between_positions b.contents
            s.line s.character e.line e.character).2) := by
  simp [delete_text_between_positions, hfind]

/-! ## C5 — reference-counted open/close lifecycle -/

/-- C5: the open/close lifecycle of `open_file`: (1, 2) entering and leaving a
scope preserves the invariant that every registered buffer has `refCount ≥ 1`;
(3) for a path not yet open, entering sends `didOpen` and a subsequent scope
exit leaves the buffer absent from the registry and sends `didClose`; (4) under
the invariant, a scope exit sends `didClose` exactly when the reference count
reaches zero, i.e. exactly when it was 1 before the exit. -/
theorem c5_open_close_lifecycle :
    (∀ (reg : Registry) (uri : String) (contents : List Char) (lid : String)
        (r : Registry × Bool), RegInvariant reg →
      open_file_enter true reg uri contents lid = .ok r → RegInvariant r.1) ∧
    (∀ (reg : Registry) (uri : String) (r : Registry × Bool), RegInvariant reg →
      open_file_exit reg uri = .ok r → RegInvariant r.1) ∧
    (∀ (reg : Registry) (uri : String) (contents : List Char) (lid : String),
      findBuf reg uri = none →
      ∀ r : Registry × Bool, open_file_enter true reg uri contents lid = .ok r →
        r.2 = true ∧
        ∀ r' : Registry × Bool, open_file_exit r.1 uri = .ok r' →
          findBuf r'.1 uri = none ∧ r'.2 = true) ∧
    (∀ (reg : Registry) (uri : String) (b : LSPFileBuffer), RegInvariant reg →
      findBuf reg uri = some b →
      ∀ r : Registry × Bool, open_file_exit reg uri = .ok r →
        (r.2 = true ↔ b.ref_count = 1)) := by
  refine ⟨?_, ?_, ?_, ?_⟩
  · intro reg uri contents lid r hinv h
    cases hfind : findBuf reg uri with
    | some fb =>
      rw [open_file_enter_existing reg uri contents lid fb hfind] at h
      cases h
      intro kb hkb
      rcases mem_setBuf reg uri _ kb hkb with hin | rfl
      · exact hinv kb hin
      · simp
    | none =>
      rw [open_file_enter_fresh reg uri contents lid hfind] at h
      cases h
      intro kb hkb
      rcases mem_setBuf reg uri _ kb hkb with hin | rfl
      · exact hinv kb hin
      · simp [mkLSPFileBuffer]
  · intro reg uri r hinv h
    cases hfind : findBuf reg uri with
    | none => simp [open_file_exit, hfind] at h
    | some fb =>
      by_cases hrc : fb.ref_count = 1
      · rw [open_file_exit_last reg uri fb hfind hrc] at h
        cases h
        intro kb hkb
        exact hinv kb (mem_removeBuf reg uri kb hkb)
      · have hb1 : 1 ≤ fb.ref_count := hinv (uri, fb) (findBuf_mem reg uri fb hfind)
        have h2 : 2 ≤ fb.ref_count := by omega
        rw [open_file_exit_shared reg uri fb hfind h2] at h
        cases h
        intro kb hkb
        rcases mem_setBuf reg uri _ kb hkb with hin | rfl
        · exact hinv kb hin
        · simp only
          omega
  · intro reg uri contents lid hfind r h
    rw [open_file_enter_fresh reg uri contents lid hfind] at h
    cases h
    refine ⟨rfl, ?_⟩
    intro r' h'
    have hself : findBuf (setBuf reg uri (mkLSPFileBuffer uri contents 0 lid 1)) uri
        = some (mkLSPFileBuffer uri contents 0 lid 1) := findBuf_setBuf_self reg uri _
    rw [open_file_exit_last _ uri _ hself rfl] at h'
    cases h'
    exact ⟨by simp only [removeBuf_setBuf_fresh reg uri _ hfind]; exact hfind, rfl⟩
  · intro reg uri b hinv hfind r h
    have hb1 : 1 ≤ b.ref_count := hinv (uri, b) (findBuf_mem reg uri b hfind)
    by_cases hrc : b.ref_count = 1
    · rw [open_file_exit_last reg uri b hfind hrc] at h
      cases h
      simp [hrc]
    · have h2 : 2 ≤ b.ref_count := by omega
      rw [open_file_exit_shared reg uri b hfind h2] at h
      cases h
      simp only [Bool.false_eq_true, false_iff]
      exact hrc

theorem c5_witness :
    RegInvariant [("u", mkLSPFileBuffer "u" ("x".data) 0 "python" 1)] ∧
    findBuf ([] : Registry) "u" = none ∧
    (true = true ∧
      ∀ r' : Registry × Bool,
        open_file_exit [("u", mkLSPFileBuffer "u" ("x".data) 0 "python" 1)] "u" = .ok r' →
          findBuf r'.1 "u" = none ∧ r'.2 = true) :=
  ⟨(c5_open_close_lifecycle).1 [] "u" ("x".data) "python"
      ([("u", mkLSPFileBuffer "u" ("x".data) 0 "python" 1)], true)
      (by intro kb hkb; simp at hkb) (by decide),
   rfl,
   (c5_open_close_lifecycle).2.2.1 [] "u" ("x".data) "python" rfl
      ([("u", mkLSPFileBuffer "u" ("x".data) 0 "python" 1)], true) (by decide)⟩

/-! ## C1 — content hash is computed only at buffer creation -/

/-- C1 counterexample: after `insert_text_at_position` inserts `"b"` into a
buffer whose contents were `"a"`, the buffer's contents are `"ab"` but
`content_hash` is no longer the MD5 of the current contents — the hash is not
recomputed by the mutation. -/
theorem c1_counterexample :
    c1buf.map (fun b => b.contents) = some ("ab".data) ∧
    c1buf.map (fun b => decide (b.content_hash = md5Hex b.contents)) = some false := by
  constructor
  · decide
  · decide

/-- C1 amended: `content_hash` equals the MD5 hex digest of the contents at
buffer creation (`__post_init__`); `insert_text_at_position` and
`delete_text_between_positions` bump the version by one and update the
contents via `TextUtils`, but leave `content_hash` unchanged — the hash is not
recomputed as part of the mutation. -/
theorem c1_amended_content_hash_creation_only :
    (∀ (uri : String) (contents : List Char) (version : Nat) (lid : String) (rc : Nat),
      (mkLSPFileBuffer uri contents version lid rc).content_hash = md5Hex contents) ∧
    (∀ (reg : Registry) (uri : String) (line col : Nat) (text : List Char) (b : LSPFileBuffer)
        (r : Registry × Position),
      findBuf reg uri = some b →
      insert_text_at_position true reg uri line col text = .ok r →
        findBuf r.1 uri = some
          { b with
            version := b.version + 1
            contents := (TextUtils.insert_text_at_position b.contents line col text).1 } ∧
        ∀ b', findBuf r.1 uri = some b' → b'.content_hash = b.content_hash) ∧
    (∀ (reg : Registry) (uri : String) (s e : Position) (b : LSPFileBuffer)
        (r : Registry × List Char),
      findBuf reg uri = some b →
      delete_text_between_positions true reg uri s e = .ok r →
        findBuf r.1 uri = some
          { b with
            version := b.version + 1
            contents := (TextUtils.delete_text_between_positions b.contents
              s.line s.character e.line e.character).1 } ∧
        ∀ b', findBuf r.1 uri = some b' → b'.content_hash = b.content_hash) := by
  refine ⟨fun _ _ _ _ _ => rfl, ?_, ?_⟩
  · intro reg uri line col text b r hfind h
    rw [insert_text_at_position_eq reg uri line col text b hfind] at h
    cases h
    have hself := findBuf_setBuf_self reg uri
      { b with
        version := b.version + 1
        contents := (TextUtils.insert_text_at_position b.contents line col text).1 }
    refine ⟨hself, ?_⟩
    intro b' hb'
    rw [hself] at hb'
    cases hb'
    rfl
  · intro reg uri s e b r hfind h
    rw [delete_text_between_positions_eq reg uri s e b hfind] at h
    cases h
    have hself := findBuf_setBuf_self reg uri
      { b with
        version := b.version + 1
        contents := (TextUtils.delete_text_between_positions b.contents
          s.line s.character e.line e.character).1 }
    refine ⟨hself, ?_⟩
    intro b' hb'
    rw [hself] at hb'
    cases hb'
    rfl

theorem c1_amended_witness :
    (mkLSPFileBuffer c1uri ("a".data) 0 "python" 1).content_hash = md5Hex ("a".data) ∧
    (findBuf c9regMid "u" = some
      { c9buf with
        version := c9buf.version + 1
        contents := (TextUtils.insert_text_at_position c9buf.contents 1 1 ("xy".data)).1 } ∧
     ∀ b', findBuf c9regMid "u" = some b' → b'.content_hash = c9buf.content_hash) :=
  ⟨(c1_amended_content_hash_creation_only).1 c1uri ("a".data) 0 "python" 1,
   (c1_amended_content_hash_creation_only).2.1 c9reg "u" 1 1 ("xy".data) c9buf
     (c9regMid, ⟨1, 3⟩) (by decide) (by decide)⟩

/-! ## C9 — insert/delete round trip on a buffer -/

/-- C9: for an open buffer and a valid position, inserting a text and then
deleting between the insertion position and the position returned by the
insertion restores the buffer's contents and `content_hash` exactly — the final
buffer differs from the original only in its version, which grew by two and is
therefore strictly greater — and the deleted text is the inserted text. -/
theorem c9_insert_then_delete_restores_buffer
    (reg : Registry) (uri : String) (line col : Nat) (text : List Char) (b : LSPFileBuffer)
    (hfind : findBuf reg uri = some b)
    (hvalid : TextUtils.ValidPos b.contents line col) :
    ∀ r : Registry × Position, insert_text_at_position true reg uri line col text = .ok r →
    ∀ r' : Registry × List Char,
      delete_text_between_positions true r.1 uri ⟨line, col⟩ r.2 = .ok r' →
        findBuf r'.1 uri = some { b with version := b.version + 2 } ∧
        r'.2 = text ∧ b.version < b.version + 2 := by
  intro r hr r' hr'
  rw [insert_text_at_position_eq reg uri line col text b hfind] at hr
  cases hr
  have hround := TextUtils.insert_delete_round b.contents line col text hvalid
  have hfind1 := findBuf_setBuf_self reg uri
    { b with
      version := b.version + 1
      contents := (TextUtils.insert_text_at_position b.contents line col text).1 }
  rw [delete_text_between_positions_eq _ uri ⟨line, col⟩ _ _ hfind1] at hr'
  cases hr'
  constructor
  · have hself := findBuf_setBuf_self (setBuf reg uri
      { b with
        version := b.version + 1
        contents := (TextUtils.insert_text_at_position b.contents line col text).1 }) uri
      { b with
        version := b.version + 1 + 1
        contents := (TextUtils.delete_text_between_positions
          (TextUtils.insert_text_at_position b.contents line col text).1 line col
          (TextUtils.insert_text_at_position b.contents line col text).2.1
          (TextUtils.insert_text_at_position b.contents line col text).2.2).1 }
    simp only at hself
    rw [hself]
    have hc : (TextUtils.delete_text_between_positions
        (TextUtils.insert_text_at_position b.contents line col text).1 line col
        (TextUtils.insert_text_at_position b.contents line col text).2.1
        (TextUtils.insert_text_at_position b.contents line col text).2.2).1 = b.contents := by
      rw [hround]
    rw [hc]
  · constructor
    · show (TextUtils.delete_text_between_positions
        (TextUtils.insert_text_at_position b.contents line col text).1 line col
        (TextUtils.insert_text_at_position b.contents line col text).2.1
        (TextUtils.insert_text_at_position b.contents line col text).2.2).2 = text
      rw [hround]
    · omega

theorem c9_witness :
    findBuf c9regEnd "u" = some { c9buf with version := c9buf.version + 2 } ∧
    ("xy".data : List Char) = "xy".data ∧ c9buf.version < c9buf.version + 2 :=
  c9_insert_then_delete_restores_buffer c9reg "u" 1 1 ("xy".data) c9buf (by decide) (by decide)
    (c9regMid, ⟨1, 3⟩) (by decide) (c9regEnd, "xy".data) (by decide)

/-! ## C2 — one-line candidates in `request_containing_symbol` -/

theorem maxByStartLine_mem : ∀ (b : FlatSym) (l : List FlatSym), maxByStartLine b l ∈ b :: l
  | b, [] => List.mem_cons_self b []
  | b, s :: rest => by
    simp only [maxByStartLine]
    split
    · exact List.mem_cons_of_mem b (maxByStartLine_mem s rest)
    · have h := maxByStartLine_mem b rest
      rcases List.mem_cons.mp h with h | h
      · rw [h]
        exact List.mem_cons_self b _
      · exact List.mem_cons_of_mem b (List.mem_cons_of_mem s h)

/-- C2 counterexample: a Variable symbol whose range starts and ends on the
same line is returned by `request_containing_symbol` — the multi-line
restriction does not apply to Variable candidates. -/
theorem c2_counterexample :
    request_containing_symbol ("x = 5".data) [c2xVar] 0 (some 1) false = .ok (some c2xVar) ∧
    c2xVar.kind = SymbolKind.var ∧
    c2xVar.range.start.line = c2xVar.range.endPos.line := by
  refine ⟨by decide, rfl, rfl⟩

/-- C2 amended: the more-than-one-line restriction applies to the Method,
Function and Class candidates only: whenever `request_containing_symbol`
returns a symbol of one of those three kinds, its range spans more than one
line; Variable symbols are admitted as candidates regardless of line span. -/
theorem c2_amended_one_line_filter
    (contents : List Char) (symbols : List FlatSym) (line : Nat) (column : Option Nat)
    (strict : Bool) (s : FlatSym)
    (h : request_containing_symbol contents symbols line column strict = .ok (some s))
    (hk : s.kind = SymbolKind.method ∨ s.kind = SymbolKind.function ∨ s.kind = SymbolKind.cls) :
    s.range.start.line ≠ s.range.endPos.line := by
  unfold request_containing_symbol at h
  rcases hget : (splitLines contents).get? line with _ | targetLine
  · rw [hget] at h
    cases h
  · rw [hget] at h
    simp only at h
    split at h
    · cases h
    · split at h
      · cases h
      · rcases hfilter : List.filter
          (fun s => is_position_in_range strict line column s.range)
          (symbols.filter (fun s =>
              (s.kind == SymbolKind.method || s.kind == SymbolKind.function ||
                s.kind == SymbolKind.cls) && s.range.start.line != s.range.endPos.line)
            ++ symbols.filter (fun s => s.kind == SymbolKind.var)) with _ | ⟨c, rest⟩
        · rw [hfilter] at h
          cases h
        · rw [hfilter] at h
          cases h
          have hmem : maxByStartLine c rest ∈ c :: rest := maxByStartLine_mem c rest
          rw [← hfilter] at hmem
          have hmem2 := (List.mem_filter.mp hmem).1
          rcases List.mem_append.mp hmem2 with hA | hB
          · have hprop := (List.mem_filter.mp hA).2
            simp only [Bool.and_eq_true, bne_iff_ne, ne_eq] at hprop
            exact hprop.2
          · have hprop := (List.mem_filter.mp hB).2
            simp only [beq_iff_eq] at hprop
            rcases hk with hk | hk | hk <;> simp [hk] at hprop

theorem c2_amended_witness :
    request_containing_symbol ("def f():\n  pass".data) [c2wMethod] 1 (some 2) false
      = .ok (some c2wMethod) ∧
    c2wMethod.range.start.line ≠ c2wMethod.range.endPos.line :=
  ⟨by decide,
   c2_amended_one_line_filter ("def f():\n  pass".data) [c2wMethod] 1 (some 2) false c2wMethod
     (by decide) (Or.inl rfl)⟩

/-! ## C4 — reference filtering and error wrapping -/

theorem filterReferences_kept_not_ignored (repoRoot : RelPath) (fsRoot : FSNode)
    (cfg : IgnoreConfig) :
    ∀ (items : List RawLocation) (locs : List Location),
      filterReferences repoRoot fsRoot cfg items = .ok locs →
      ∀ loc ∈ locs, ∀ rp, loc.relativePath = some rp →
        is_ignored_path fsRoot cfg rp true = .ok false
  | [], locs, h => by
    cases h
    intro loc hloc
    cases hloc
  | item :: rest, locs, h => by
    simp only [filterReferences] at h
    rcases hrel : (enrich_location repoRoot item).relativePath with _ | rp'
    · simp only [hrel] at h
      rcases hrest : filterReferences repoRoot fsRoot cfg rest with e | locs'
      · simp only [hrest, Except.map] at h
        cases h
      · simp only [hrest, Except.map] at h
        cases h
        intro loc hloc rp hrp
        rcases List.mem_cons.mp hloc with rfl | hloc'
        · rw [hrel] at hrp
          cases hrp
        · exact filterReferences_kept_not_ignored repoRoot fsRoot cfg rest locs' hrest loc hloc'
            rp hrp
    · simp only [hrel] at h
      rcases hign : is_ignored_path fsRoot cfg rp' true with e | bv
      · simp only [hign] at h
        cases h
      · cases bv
        · simp only [hign] at h
          rcases hrest : filterReferences repoRoot fsRoot cfg rest with e | locs'
          · simp only [hrest, Except.map] at h
            cases h
          · simp only [hrest, Except.map] at h
            cases h
            intro loc hloc rp hrp
            rcases List.mem_cons.mp hloc with rfl | hloc'
            · rw [hrel] at hrp
              cases hrp
              exact hign
            · exact filterReferences_kept_not_ignored repoRoot fsRoot cfg rest locs' hrest loc
                hloc' rp hrp
        · simp only [hign] at h
          exact filterReferences_kept_not_ignored repoRoot fsRoot cfg rest locs h

/-- C4 amended: (1) `_send_references_request` always sends
`context.includeDeclaration = false`; (2) every location kept by
`request_references` that carries a `relativePath` has one for which
`is_ignored_path` returns `false` — locations with an ignored `relativePath`
are dropped, while locations outside the repository root are kept without a
`relativePath`; (3) an LSP error with code `-32603` is re-raised as the typed
runtime error naming the originating file, line and column. -/
theorem c4_amended_reference_filtering :
    (∀ (repoRoot relPath : RelPath) (line column : Nat),
      (buildReferencesRequest repoRoot relPath line column).includeDeclaration = false) ∧
    (∀ (started : Bool) (repoRoot : RelPath) (fsRoot : FSNode) (cfg : IgnoreConfig)
        (relPath : RelPath) (line column : Nat)
        (resp : Except LspError (Option (List RawLocation))) (locs : List Location),
      request_references started repoRoot fsRoot cfg relPath line column resp = .ok locs →
      ∀ loc ∈ locs, ∀ rp, loc.relativePath = some rp →
        is_ignored_path fsRoot cfg rp true = .ok false) ∧
    (∀ (repoRoot : RelPath) (fsRoot : FSNode) (cfg : IgnoreConfig) (relPath : RelPath)
        (line column : Nat) (e : LspError), e.code = -32603 →
      request_references true repoRoot fsRoot cfg relPath line column (.error e)
        = .error (.lspInternalOnReferences (joinPath relPath) line column)) := by
  refine ⟨fun _ _ _ _ => rfl, ?_, ?_⟩
  · intro started repoRoot fsRoot cfg relPath line column resp locs h
    cases started
    · simp [request_references] at h
    · rcases resp with e | o
      · by_cases hc : e.code = -32603 <;> simp [request_references, hc] at h
      · rcases o with _ | items
        · simp only [request_references, if_pos rfl] at h
          cases h
          intro loc hloc
          cases hloc
        · simp only [request_references, if_pos rfl] at h
          exact filterReferences_kept_not_ignored repoRoot fsRoot cfg items locs h
  · intro repoRoot fsRoot cfg relPath line column e he
    simp [request_references, he]

theorem c4_amended_witness :
    (buildReferencesRequest ["repo"] ["a.py"] 0 0).includeDeclaration = false ∧
    is_ignored_path c4fs plainCfg ["a.py"] true = .ok false ∧
    request_references true ["repo"] c4fs plainCfg ["a.py"] 0 0
        (.error ⟨-32603, "internal"⟩)
      = .error (.lspInternalOnReferences "a.py" 0 0) :=
  ⟨(c4_amended_reference_filtering).1 ["repo"] ["a.py"] 0 0,
   (c4_amended_reference_filtering).2.1 true ["repo"] c4fs plainCfg ["a.py"] 0 0
     (.ok (some [c4insideLoc]))
     [{ uri := ["repo", "a.py"], range := zeroRange, absolutePath := ["repo", "a.py"],
        relativePath := some ["a.py"] }]
     (by decide)
     { uri := ["repo", "a.py"], range := zeroRange, absolutePath := ["repo", "a.py"],
       relativePath := some ["a.py"] }
     (by decide) ["a.py"] rfl,
   (c4_amended_reference_filtering).2.2 ["repo"] c4fs plainCfg ["a.py"] 0 0
     ⟨-32603, "internal"⟩ rfl⟩

/-- C4 counterexample: a reference whose absolute path lies outside the
repository root is enriched without a `relativePath` and kept, so the returned
sequence contains a location that does not have a non-ignored `relativePath`
as the claim requires. -/
theorem c4_counterexample :
    request_references true ["repo"] c4fs plainCfg ["a.py"] 0 0 (.ok (some [c4outsideLoc]))
      = .ok [{ uri := ["lib", "x.py"], range := zeroRange, absolutePath := ["lib", "x.py"],
               relativePath := none }] ∧
    ({ uri := ["lib", "x.py"], range := zeroRange, absolutePath := ["lib", "x.py"],
       relativePath := none } : Location).relativePath = none := by
  exact ⟨by decide, rfl⟩

/-! ## Lemmas about the full-symbol-tree traversal -/

theorem mem_collectPFList (q : RelPath) :
    ∀ l : List UNode, q ∈ collectPF.collectPFList l ↔ ∃ r ∈ l, q ∈ collectPF r
  | [] => by simp [collectPF.collectPFList]
  | n :: ns => by
    simp only [collectPF.collectPFList, List.mem_append, mem_collectPFList q ns]
    constructor
    · rintro (h | ⟨r, hr, hq⟩)
      · exact ⟨n, List.mem_cons_self n ns, h⟩
      · exact ⟨r, List.mem_cons_of_mem n hr, hq⟩
    · rintro ⟨r, hr, hq⟩
      rcases List.mem_cons.mp hr with rfl | hr
      · exact Or.inl hq
      · exact Or.inr ⟨r, hr, hq⟩

theorem getElem_append_cons (rp : RelPath) (n : String) (u : RelPath) :
    (rp ++ n :: u)[rp.length]? = some n := by
  rw [List.getElem?_append_right (Nat.le_refl rp.length)]
  simp

theorem mem_filePathsList_shape :
    ∀ (cs : List FSNode) (rp q : RelPath), q ∈ filePaths.filePathsList rp cs →
      ∃ c ∈ cs, ∃ u, q = rp ++ c.name :: u
  | [], rp, q, h => by simp [filePaths.filePathsList] at h
  | c :: rest, rp, q, h => by
    simp only [filePaths.filePathsList, List.mem_append] at h
    rcases h with h | h
    · cases c with
      | file fn fc =>
        simp only [filePaths, FSNode.name, List.mem_singleton] at h
        subst h
        exact ⟨.file fn fc, List.mem_cons_self _ _, [], by simp [FSNode.name]⟩
      | dir dn dcs =>
        simp only [filePaths, FSNode.name] at h
        obtain ⟨c', hc', u', hq⟩ := mem_filePathsList_shape dcs (rp ++ [dn]) q h
        refine ⟨.dir dn dcs, List.mem_cons_self _ _, FSNode.name c' :: u', ?_⟩
        rw [hq, List.append_assoc]
        simp [FSNode.name]
    · obtain ⟨c', hc', u, hq⟩ := mem_filePathsList_shape rest rp q h
      exact ⟨c', List.mem_cons_of_mem c hc', u, hq⟩

theorem mem_filePaths_shape (c : FSNode) (rp q : RelPath) (h : q ∈ filePaths rp c) :
    ∃ u, q = rp ++ u := by
  cases c with
  | file fn fc =>
    simp only [filePaths, List.mem_singleton] at h
    subst h
    exact ⟨[], by simp⟩
  | dir dn dcs =>
    simp only [filePaths] at h
    obtain ⟨c', _, u', hq⟩ := mem_filePathsList_shape dcs rp q h
    exact ⟨FSNode.name c' :: u', hq⟩

theorem visited_sub_filePathsList (ign : RelPath → Bool) (ds : RelPath → List UNode) :
    ∀ (cs : List FSNode) (rp q : RelPath),
      q ∈ (process_directory.processEntries ign ds rp cs).2 → q ∈ filePaths.filePathsList rp cs
  | [], rp, q, h => by simp [process_directory.processEntries] at h
  | c :: rest, rp, q, h => by
    simp only [process_directory.processEntries] at h
    split at h
    · exact List.mem_append_right _ (visited_sub_filePathsList ign ds rest rp q h)
    · cases c with
      | dir dn dcs =>
        simp only [FSNode.name, List.mem_append] at h
        simp only [filePaths.filePathsList, filePaths, FSNode.name, List.mem_append]
        rcases h with h | h
        · simp only [process_directory] at h
          split at h
          · simp at h
          · exact Or.inl (visited_sub_filePathsList ign ds dcs _ q h)
        · exact Or.inr (visited_sub_filePathsList ign ds rest rp q h)
      | file fn fc =>
        simp only [FSNode.name, List.mem_cons] at h
        simp only [filePaths.filePathsList, filePaths, FSNode.name, List.mem_append,
          List.mem_singleton]
        rcases h with rfl | h
        · exact Or.inl rfl
        · exact Or.inr (visited_sub_filePathsList ign ds rest rp q h)

theorem visited_sub_filePaths (ign : RelPath → Bool) (ds : RelPath → List UNode)
    (t : FSNode) (rp q : RelPath) (h : q ∈ (process_directory ign ds rp t).2) :
    q ∈ filePaths rp t := by
  cases t with
  | file fn fc => simp [process_directory] at h
  | dir dn dcs =>
    simp only [process_directory] at h
    split at h
    · simp at h
    · simp only [filePaths]
      exact visited_sub_filePathsList ign ds dcs rp q h

theorem visited_not_ignored_entries (ign : RelPath → Bool) (ds : RelPath → List UNode) :
    ∀ (cs : List FSNode) (rp q : RelPath),
      q ∈ (process_directory.processEntries ign ds rp cs).2 → ign q = false
  | [], rp, q, h => by simp [process_directory.processEntries] at h
  | c :: rest, rp, q, h => by
    simp only [process_directory.processEntries] at h
    split at h
    · exact visited_not_ignored_entries ign ds rest rp q h
    · rename_i hni
      cases c with
      | dir dn dcs =>
        simp only [FSNode.name, List.mem_append] at h
        rcases h with h | h
        · simp only [process_directory] at h
          split at h
          · simp at h
          · exact visited_not_ignored_entries ign ds dcs _ q h
        · exact visited_not_ignored_entries ign ds rest rp q h
      | file fn fc =>
        simp only [FSNode.name, List.mem_cons] at h
        rcases h with rfl | h
        · simpa [FSNode.name] using hni
        · exact visited_not_ignored_entries ign ds rest rp q h

theorem produced_not_ignored_entries (ign : RelPath → Bool) (ds : RelPath → List UNode) :
    ∀ (cs : List FSNode) (rp : RelPath) (r : UNode),
      r ∈ (process_directory.processEntries ign ds rp cs).1 →
      ∀ q ∈ collectPF r, ign q = false
  | [], rp, r, h => by simp [process_directory.processEntries] at h
  | c :: rest, rp, r, h => by
    simp only [process_directory.processEntries] at h
    split at h
    · exact produced_not_ignored_entries ign ds rest rp r h
    · rename_i hni
      cases c with
      | dir dn dcs =>
        simp only [FSNode.name, List.mem_append] at h
        rcases h with h | h
        · simp only [process_directory] at h
          split at h
          · simp at h
          · simp only [List.mem_singleton] at h
            subst h
            intro q hq
            simp only [collectPF] at hq
            rcases List.mem_cons.mp hq with rfl | hq
            · simpa [FSNode.name] using hni
            · obtain ⟨r', hr', hq'⟩ := (mem_collectPFList q _).mp hq
              exact produced_not_ignored_entries ign ds dcs _ r' hr' q hq'
        · exact produced_not_ignored_entries ign ds rest rp r h
      | file fn fc =>
        simp only [FSNode.name, List.mem_cons] at h
        rcases h with rfl | h
        · intro q hq
          simp only [collectPF, List.mem_singleton] at hq
          subst hq
          simpa [FSNode.name] using hni
        · exact produced_not_ignored_entries ign ds rest rp r h

theorem visited_count_entries (ign : RelPath → Bool) (ds : RelPath → List UNode) :
    ∀ (cs : List FSNode) (rp q : RelPath),
      (cs.map FSNode.name).Nodup → wfFS.wfFSList cs = true →
      q ∈ filePaths.filePathsList rp cs →
      (∀ s, (∃ u, u ≠ [] ∧ rp ++ u = s) → (∃ v, s ++ v = q) → ign s = false) →
      (process_directory.processEntries ign ds rp cs).2.count q = 1
  | [], rp, q, hnodup, hwf, hq, hanc => by simp [filePaths.filePathsList] at hq
  | c :: rest, rp, q, hnodup, hwf, hq, hanc => by
    have hnodup' := List.nodup_cons.mp hnodup
    have hwf' : wfFS c = true ∧ wfFS.wfFSList rest = true := by
      simpa [wfFS.wfFSList, Bool.and_eq_true] using hwf
    simp only [filePaths.filePathsList, List.mem_append] at hq
    rcases hq with hqc | hqr
    · -- the target file lies under the head entry
      obtain ⟨u, hu⟩ := mem_filePaths_shape c (rp ++ [c.name]) q hqc
      have hget : q[rp.length]? = some c.name := by
        rw [hu, List.append_assoc]
        exact getElem_append_cons rp c.name u
      have hnotrest : q ∉ filePaths.filePathsList rp rest := by
        intro hq'
        obtain ⟨c', hc', u', hq'eq⟩ := mem_filePathsList_shape rest rp q hq'
        have hget' : q[rp.length]? = some (FSNode.name c') := by
          rw [hq'eq]
          exact getElem_append_cons rp _ u'
        rw [hget] at hget'
        have hne : FSNode.name c = FSNode.name c' := Option.some.inj hget'
        exact hnodup'.1 (hne ▸ List.mem_map_of_mem FSNode.name hc')
      have hzero : (process_directory.processEntries ign ds rp rest).2.count q = 0 :=
        List.count_eq_zero.mpr
          (fun hmem => hnotrest (visited_sub_filePathsList ign ds rest rp q hmem))
      have hignc : ign (rp ++ [c.name]) = false :=
        hanc (rp ++ [c.name]) ⟨[c.name], by simp, rfl⟩ ⟨u, hu.symm⟩
      simp only [process_directory.processEntries, hignc, Bool.false_eq_true, if_neg,
        not_false_eq_true]
      cases c with
      | file fn fc =>
        simp only [filePaths, FSNode.name, List.mem_singleton] at hqc
        simp only [FSNode.name] at hzero ⊢
        subst hqc
        rw [List.count_cons_self, hzero]
      | dir dn dcs =>
        simp only [FSNode.name] at hzero hignc ⊢
        rw [List.count_append]
        have hdcs : (dcs.map FSNode.name).Nodup ∧ wfFS.wfFSList dcs = true := by
          simpa [wfFS, Bool.and_eq_true] using hwf'.1
        have hqdcs : q ∈ filePaths.filePathsList (rp ++ [dn]) dcs := by
          simpa [filePaths, FSNode.name] using hqc
        have hanc' : ∀ s, (∃ u', u' ≠ [] ∧ (rp ++ [dn]) ++ u' = s) → (∃ v, s ++ v = q) →
            ign s = false := by
          rintro s ⟨u', _, hu'⟩ hpre
          refine hanc s ⟨[dn] ++ u', by simp, ?_⟩ hpre
          rw [← hu', List.append_assoc]
        have hrec := visited_count_entries ign ds dcs (rp ++ [dn]) q hdcs.1 hdcs.2 hqdcs hanc'
        simp only [process_directory, hignc, Bool.false_eq_true, if_neg, not_false_eq_true]
        rw [hrec, hzero]
    · -- the target file lies under one of the remaining entries
      obtain ⟨c', hc', u', hq'eq⟩ := mem_filePathsList_shape rest rp q hqr
      have hget' : q[rp.length]? = some (FSNode.name c') := by
        rw [hq'eq]
        exact getElem_append_cons rp _ u'
      have hname_ne : FSNode.name c' ≠ FSNode.name c := by
        intro heq
        exact hnodup'.1 (heq ▸ List.mem_map_of_mem FSNode.name hc')
      have hnotleft : q ∉ filePaths (rp ++ [c.name]) c := by
        intro hq'
        obtain ⟨u, hu⟩ := mem_filePaths_shape c (rp ++ [c.name]) q hq'
        have hget : q[rp.length]? = some c.name := by
          rw [hu, List.append_assoc]
          exact getElem_append_cons rp c.name u
        rw [hget] at hget'
        exact hname_ne (Option.some.inj hget').symm
      simp only [process_directory.processEntries]
      split
      · exact visited_count_entries ign ds rest rp q hnodup'.2 hwf'.2 hqr hanc
      · cases c with
        | file fn fc =>
          simp only [FSNode.name] at hnotleft ⊢
          have hqne : q ≠ rp ++ [fn] := by
            intro heq
            exact hnotleft (by simp [filePaths, heq])
          rw [List.count_cons_of_ne hqne]
          exact visited_count_entries ign ds rest rp q hnodup'.2 hwf'.2 hqr hanc
        | dir dn dcs =>
          simp only [FSNode.name] at hnotleft ⊢
          rw [List.count_append]
          have hleftzero :
              (process_directory ign ds (rp ++ [dn]) (FSNode.dir dn dcs)).2.count q = 0 :=
            List.count_eq_zero.mpr (fun hmem =>
              hnotleft (by
                have := visited_sub_filePaths ign ds (FSNode.dir dn dcs) (rp ++ [dn]) q hmem
                simpa [FSNode.name] using this))
          rw [hleftzero, visited_count_entries ign ds rest rp q hnodup'.2 hwf'.2 hqr hanc]

/-! ## C6 — ignore handling in the full-symbol-tree traversal -/

/-- C6 counterexample: in a repository whose `vendor` directory is ignored
while the file `vendor/c.py` itself is not (gitignore re-inclusion), the
non-ignored regular file `vendor/c.py` is never visited — the traversal skips
the whole directory — so "every non-ignored regular file is visited exactly
once" fails. -/
theorem c6_counterexample :
    c6ign ["vendor", "c.py"] = false ∧
    ["vendor", "c.py"] ∈ filePaths [] c6fs ∧
    (process_directory c6ign noDocSyms [] c6fs).2.count ["vendor", "c.py"] = 0 := by
  decide

/-- C6 amended: (1) passing a single ignored file to `request_full_symbol_tree`
yields the empty result with an error-level log; (2) every file visited by the
traversal is non-ignored; (3) every Package or File node produced by the
traversal sits at a non-ignored path; (4) in a well-formed repository, every
regular file all of whose ancestor paths (the file itself, its enclosing
directories and the traversal root) are non-ignored is visited exactly once. -/
theorem c6_amended_traversal :
    (∀ (ign : RelPath → Bool) (ds : RelPath → List UNode) (root : FSNode) (p : RelPath)
        (n : String) (c : List Char),
      resolve root p = some (.file n c) → ign p = true →
      request_full_symbol_tree ign ds root (some p) = .ok ([], [], true)) ∧
    (∀ (ign : RelPath → Bool) (ds : RelPath → List UNode) (rp : RelPath) (t : FSNode)
        (q : RelPath), q ∈ (process_directory ign ds rp t).2 → ign q = false) ∧
    (∀ (ign : RelPath → Bool) (ds : RelPath → List UNode) (rp : RelPath) (t : FSNode)
        (r : UNode), r ∈ (process_directory ign ds rp t).1 →
      ∀ q ∈ collectPF r, ign q = false) ∧
    (∀ (ign : RelPath → Bool) (ds : RelPath → List UNode) (name : String) (cs : List FSNode)
        (q : RelPath), wfFS (.dir name cs) = true →
      q ∈ filePaths [] (.dir name cs) →
      (∀ s : RelPath, (∃ v, s ++ v = q) → ign s = false) →
      (process_directory ign ds [] (.dir name cs)).2.count q = 1) := by
  refine ⟨?_, ?_, ?_, ?_⟩
  · intro ign ds root p n c hres hign
    simp [request_full_symbol_tree, hres, hign]
  · intro ign ds rp t q h
    cases t with
    | file fn fc => simp [process_directory] at h
    | dir dn dcs =>
      simp only [process_directory] at h
      split at h
      · simp at h
      · exact visited_not_ignored_entries ign ds dcs rp q h
  · intro ign ds rp t r h
    cases t with
    | file fn fc => simp [process_directory] at h
    | dir dn dcs =>
      simp only [process_directory] at h
      split at h
      · simp at h
      · rename_i hni
        simp only [List.mem_singleton] at h
        subst h
        intro q hq
        simp only [collectPF] at hq
        rcases List.mem_cons.mp hq with rfl | hq
        · simpa using hni
        · obtain ⟨r', hr', hq'⟩ := (mem_collectPFList q _).mp hq
          exact produced_not_ignored_entries ign ds dcs rp r' hr' q hq'
  · intro ign ds name cs q hwf hq hanc
    have hign0 : ign [] = false := hanc [] ⟨q, by simp⟩
    have hw : (cs.map FSNode.name).Nodup ∧ wfFS.wfFSList cs = true := by
      simpa [wfFS, Bool.and_eq_true] using hwf
    have hq' : q ∈ filePaths.filePathsList [] cs := by
      simpa [filePaths] using hq
    simp only [process_directory, hign0, Bool.false_eq_true, if_neg, not_false_eq_true]
    exact visited_count_entries ign ds cs [] q hw.1 hw.2 hq' (fun s _ hpre => hanc s hpre)

theorem c6_amended_witness :
    request_full_symbol_tree c7ign noDocSyms c7fs (some ["vendor", "c.py"])
      = .ok ([], [], true) ∧
    (process_directory (fun _ => false) noDocSyms [] c7fs).2.count ["src", "a.py"] = 1 :=
  ⟨(c6_amended_traversal).1 c7ign noDocSyms c7fs ["vendor", "c.py"] "c.py" [] rfl rfl,
   (c6_amended_traversal).2.2.2 (fun _ => false) noDocSyms "repo"
     [.dir "src" [.file "a.py" [], .file "b.py" []], .dir "vendor" [.file "c.py" []]]
     ["src", "a.py"] (by decide) (by decide) (fun _ _ => rfl)⟩

/-! ## C7 — scenario S5: full tree of `{src/a.py, src/b.py, vendor/c.py}` -/

/-- C7 counterexample: on the S5 repository the single root of the full symbol
tree is the Package for the repository root directory (here named `repo`), not
a Package named `src`; the Package `src` is its child, so the root's children
are Packages, not the File symbols `a` and `b`. -/
theorem c7_counterexample :
    c7syms.map UNode.name = ["repo"] ∧
    c7syms.map UNode.kind = [SymbolKind.package] ∧
    (c7syms.flatMap UNode.children).map UNode.kind = [SymbolKind.package] ∧
    ("repo" : String) ≠ "src" := by
  refine ⟨by decide, by decide, by decide, by decide⟩

/-- C7 amended: `full_symbol_tree()` on the S5 repository returns exactly one
root symbol — the Package for the repository root — whose single child is the
Package `src`, whose children in turn are the File symbols `a` and `b`; the
files visited are exactly `src/a.py` and `src/b.py`, and no node for `vendor`
appears anywhere in the tree. -/
theorem c7_amended_scenario_tree :
    c7syms.map UNode.name = ["repo"] ∧
    c7syms.map UNode.kind = [SymbolKind.package] ∧
    (c7syms.flatMap UNode.children).map UNode.name = ["src"] ∧
    (c7syms.flatMap UNode.children).map UNode.kind = [SymbolKind.package] ∧
    ((c7syms.flatMap UNode.children).flatMap UNode.children).map UNode.name = ["a", "b"] ∧
    ((c7syms.flatMap UNode.children).flatMap UNode.children).map UNode.kind
      = [SymbolKind.file, SymbolKind.file] ∧
    c7visited = [["src", "a.py"], ["src", "b.py"]] ∧
    (c7syms.flatMap collectPF).all (fun q => !(q.contains "vendor")) = true := by
  refine ⟨by decide, by decide, by decide, by decide, by decide, by decide, by decide, by decide⟩
